import Mathlib

/-!
Shallow embedding of the celestia-app block-data layout core: the share
sizing constants, the compact share splitter, share-sequence reconstruction
and validation, and the square-size estimator, together with proofs of the
specification's testable properties.

Bytes are modelled as natural numbers below 256 and byte strings as lists of
naturals; machine integers are unbounded naturals with explicit wrapping
(`% 2 ^ 32`) wherever the source performs a width conversion.  The estimator
`estimateSquareSize` is translated from `src/app/estimate_square_size.go`;
the shares package it relies on (capacities, `DelimLen`,
`SparseSharesNeeded`, the splitter, `RawData`, `validSequenceLen`) is not
part of the provided sources, so those definitions are modelled from the
spec, pinned where possible by the repository's tests.
-/

/-- Total size of a share in bytes (spec §4.1); the value 512 is pinned by
the sparse-capacity values exercised in Test_sparseSharesNeeded. -/
def ShareSize : Nat := 512

/-- Size of a namespace id in bytes (spec §3). -/
def NamespaceSize : Nat := 8

/-- Size of the info byte of a share (spec §3). -/
def ShareInfoBytes : Nat := 1

/-- Size of the big-endian sequence-length field carried by a
sequence-start share (spec §3). -/
def SequenceLenBytes : Nat := 4

/-- Modelled from the spec: compact shares reserve one extra byte for
locating the first unit inside the share, which is why the compact
capacities are below the sparse ones (spec §4.1 fixes distinct
first/continuation content capacities for compact and sparse shares). -/
def CompactShareReservedBytes : Nat := 1

/-- Content capacity of the first compact share of a sequence (spec §4.1). -/
def FirstCompactShareContentSize : Nat :=
  ShareSize - NamespaceSize - ShareInfoBytes - SequenceLenBytes - CompactShareReservedBytes

/-- Content capacity of a continuation compact share (spec §4.1). -/
def ContinuationCompactShareContentSize : Nat :=
  ShareSize - NamespaceSize - ShareInfoBytes - CompactShareReservedBytes

/-- Content capacity of the first sparse share of a sequence (spec §4.1);
equals 499, as pinned by Test_sparseSharesNeeded. -/
def FirstSparseShareContentSize : Nat :=
  ShareSize - NamespaceSize - ShareInfoBytes - SequenceLenBytes

/-- Content capacity of a continuation sparse share (spec §4.1); equals 503,
as pinned by Test_sparseSharesNeeded. -/
def ContinuationSparseShareContentSize : Nat :=
  ShareSize - NamespaceSize - ShareInfoBytes

/-- Numeric value of the first compact capacity. -/
theorem FirstCompactShareContentSize_val : FirstCompactShareContentSize = 498 := rfl

/-- Numeric value of the continuation compact capacity. -/
theorem ContinuationCompactShareContentSize_val :
    ContinuationCompactShareContentSize = 502 := rfl

/-- Numeric value of the first sparse capacity. -/
theorem FirstSparseShareContentSize_val : FirstSparseShareContentSize = 499 := rfl

/-- Numeric value of the continuation sparse capacity. -/
theorem ContinuationSparseShareContentSize_val :
    ContinuationSparseShareContentSize = 503 := rfl

/-- Smallest allowed square side length (appconsts.DefaultMinSquareSize). -/
def DefaultMinSquareSize : Nat := 1

/-- Largest allowed square side length (appconsts.DefaultMaxSquareSize). -/
def DefaultMaxSquareSize : Nat := 128

/-- Fuel-bounded worker for DelimLen, structurally recursive so that it
evaluates on concrete inputs; the fuel only forces termination and is
irrelevant once it is at least x. -/
def delimLenGo : Nat → Nat → Nat
  | 0, _ => 1
  | fuel + 1, x => if x < 128 then 1 else 1 + delimLenGo fuel (x / 128)

/-- Length in bytes of the minimal unsigned-varint encoding of x
(shares.DelimLen in the source: one byte per 7-bit group). -/
def DelimLen (x : Nat) : Nat := delimLenGo x x

/-- The fuel of delimLenGo is irrelevant once it covers the argument. -/
theorem delimLenGo_congr : ∀ fuel, ∀ fuel' x, x ≤ fuel → x ≤ fuel' →
    delimLenGo fuel x = delimLenGo fuel' x := by
  intro fuel
  induction fuel with
  | zero =>
    intro fuel' x h1 h2
    have hx : x = 0 := by omega
    subst hx
    cases fuel' <;> simp [delimLenGo]
  | succ fuel ih =>
    intro fuel' x h1 h2
    by_cases hx : x < 128
    · cases fuel' with
      | zero =>
        have : x = 0 := by omega
        subst this
        simp [delimLenGo]
      | succ fuel' => simp [delimLenGo, hx]
    · cases fuel' with
      | zero => omega
      | succ fuel' =>
        simp only [delimLenGo, if_neg hx]
        have hdiv : x / 128 < x := Nat.div_lt_self (by omega) (by omega)
        rw [ih fuel' (x / 128) (by omega) (by omega)]

/-- The defining recurrence of DelimLen. -/
theorem DelimLen_eq (x : Nat) :
    DelimLen x = if x < 128 then 1 else 1 + DelimLen (x / 128) := by
  unfold DelimLen
  cases x with
  | zero => simp [delimLenGo]
  | succ k =>
    by_cases hx : k + 1 < 128
    · simp [delimLenGo, hx]
    · simp only [delimLenGo, if_neg hx]
      have hdiv : (k + 1) / 128 < k + 1 := Nat.div_lt_self (by omega) (by omega)
      rw [delimLenGo_congr k ((k + 1) / 128) ((k + 1) / 128) (by omega) (by omega)]

/-- Fuel-bounded worker for putUvarint, structurally recursive so that it
evaluates on concrete inputs. -/
def uvarintGo : Nat → Nat → List Nat
  | 0, x => [x]
  | fuel + 1, x => if x < 128 then [x] else (x % 128 + 128) :: uvarintGo fuel (x / 128)

/-- Minimal unsigned-varint encoding of x, little-endian 7-bit groups with a
continuation bit; this is the item delimiter written by the compact splitter
(spec §4.2). -/
def putUvarint (x : Nat) : List Nat := uvarintGo x x

/-- The fuel of uvarintGo is irrelevant once it covers the argument. -/
theorem uvarintGo_congr : ∀ fuel, ∀ fuel' x, x ≤ fuel → x ≤ fuel' →
    uvarintGo fuel x = uvarintGo fuel' x := by
  intro fuel
  induction fuel with
  | zero =>
    intro fuel' x h1 h2
    have hx : x = 0 := by omega
    subst hx
    cases fuel' <;> simp [uvarintGo]
  | succ fuel ih =>
    intro fuel' x h1 h2
    by_cases hx : x < 128
    · cases fuel' with
      | zero =>
        have : x = 0 := by omega
        subst this
        simp [uvarintGo]
      | succ fuel' => simp [uvarintGo, hx]
    · cases fuel' with
      | zero => omega
      | succ fuel' =>
        simp only [uvarintGo, if_neg hx]
        have hdiv : x / 128 < x := Nat.div_lt_self (by omega) (by omega)
        rw [ih fuel' (x / 128) (by omega) (by omega)]

/-- The defining recurrence of putUvarint. -/
theorem putUvarint_eq (x : Nat) :
    putUvarint x = if x < 128 then [x] else (x % 128 + 128) :: putUvarint (x / 128) := by
  unfold putUvarint
  cases x with
  | zero => simp [uvarintGo]
  | succ k =>
    by_cases hx : k + 1 < 128
    · simp [uvarintGo, hx]
    · simp only [uvarintGo, if_neg hx]
      have hdiv : (k + 1) / 128 < k + 1 := Nat.div_lt_self (by omega) (by omega)
      rw [uvarintGo_congr k ((k + 1) / 128) ((k + 1) / 128) (by omega) (by omega)]

/-- Modelled from the spec: number of compact shares needed to hold
sequenceLen content bytes, using the splitter's capacity arithmetic
(spec §4.4 and §8; the shares-package function CompactSharesNeeded is absent
from the sources and is pinned here by Test_compactSharesNeeded). -/
def CompactSharesNeeded (sequenceLen : Nat) : Nat :=
  if sequenceLen = 0 then 0
  else if sequenceLen ≤ FirstCompactShareContentSize then 1
  else 1 + (sequenceLen - FirstCompactShareContentSize
      + ContinuationCompactShareContentSize - 1) / ContinuationCompactShareContentSize

/-- Modelled from the spec: number of sparse shares needed to hold
sequenceLen content bytes (spec §4.4 and §8; the shares-package function
SparseSharesNeeded is absent from the sources and is pinned here by
Test_sparseSharesNeeded). -/
def SparseSharesNeeded (sequenceLen : Nat) : Nat :=
  if sequenceLen = 0 then 0
  else if sequenceLen ≤ FirstSparseShareContentSize then 1
  else 1 + (sequenceLen - FirstSparseShareContentSize
      + ContinuationSparseShareContentSize - 1) / ContinuationSparseShareContentSize

/-- The ten numeric cases of Test_compactSharesNeeded and
Test_sparseSharesNeeded from the repository's test file, checked against the
modelled counting functions. -/
theorem sharesNeeded_test_vectors :
    CompactSharesNeeded 2 = 1
    ∧ CompactSharesNeeded (FirstCompactShareContentSize
        + ContinuationCompactShareContentSize * 100) = 101
    ∧ SparseSharesNeeded 2 = 1
    ∧ SparseSharesNeeded (FirstSparseShareContentSize
        + ContinuationCompactShareContentSize * 2) = 3
    ∧ SparseSharesNeeded (FirstSparseShareContentSize
        + ContinuationCompactShareContentSize * 99) = 100
    ∧ SparseSharesNeeded 1000 = 2
    ∧ SparseSharesNeeded 10000 = 20
    ∧ SparseSharesNeeded 100000 = 199 := by
  refine ⟨by decide, by decide, by decide, by decide, by decide, by decide, by decide, by decide⟩

/-- C9: boundary values of the share-counting functions: 0 bytes need 0
shares, 1 byte needs 1 share, exactly the first-share capacity needs 1
share, one byte more needs 2, and the first-share capacity plus k whole
continuation capacities needs k+1 shares, for compact and sparse alike. -/
theorem sharesNeeded_boundaries :
    (CompactSharesNeeded 0 = 0 ∧ CompactSharesNeeded 1 = 1
      ∧ CompactSharesNeeded FirstCompactShareContentSize = 1
      ∧ CompactSharesNeeded (FirstCompactShareContentSize + 1) = 2
      ∧ ∀ k, CompactSharesNeeded
          (FirstCompactShareContentSize + k * ContinuationCompactShareContentSize) = k + 1)
    ∧ (SparseSharesNeeded 0 = 0 ∧ SparseSharesNeeded 1 = 1
      ∧ SparseSharesNeeded FirstSparseShareContentSize = 1
      ∧ SparseSharesNeeded (FirstSparseShareContentSize + 1) = 2
      ∧ ∀ k, SparseSharesNeeded
          (FirstSparseShareContentSize + k * ContinuationSparseShareContentSize) = k + 1) := by
  constructor
  · refine ⟨by decide, by decide, by decide, by decide, ?_⟩
    intro k
    simp only [CompactSharesNeeded, FirstCompactShareContentSize,
      ContinuationCompactShareContentSize, ShareSize, NamespaceSize, ShareInfoBytes,
      SequenceLenBytes, CompactShareReservedBytes]
    rcases k with _ | k
    · norm_num
    · split_ifs <;> omega
  · refine ⟨by decide, by decide, by decide, by decide, ?_⟩
    intro k
    simp only [SparseSharesNeeded, FirstSparseShareContentSize,
      ContinuationSparseShareContentSize, ShareSize, NamespaceSize, ShareInfoBytes,
      SequenceLenBytes]
    rcases k with _ | k
    · norm_num
    · split_ifs <;> omega

/-- Error kinds of the reconstruction and validation paths (spec §7). -/
inductive ShareErr where
  | emptySequence
  | missingSequenceStart
  | sequenceLenMismatch
deriving DecidableEq

/-- Equality of fallible results is decidable whenever both component types
have decidable equality; used to evaluate the modelled operations on
concrete inputs. -/
instance {ε α : Type} [DecidableEq ε] [DecidableEq α] : DecidableEq (Except ε α) :=
  fun a b =>
    match a, b with
    | .ok x, .ok y =>
      if h : x = y then isTrue (by rw [h]) else isFalse fun hc => h (Except.ok.inj hc)
    | .ok _, .error _ => isFalse fun hc => Except.noConfusion hc
    | .error _, .ok _ => isFalse fun hc => Except.noConfusion hc
    | .error d, .error e =>
      if h : d = e then isTrue (by rw [h]) else isFalse fun hc => h (Except.error.inj hc)

/-- Modelled from the spec: a share, with the fields of the fixed layout
NamespaceID then InfoByte (version bits and is-sequence-start flag) then the
4-byte big-endian SequenceLen (meaningful only on a sequence-start share)
then the content region, whose zero padding up to capacity is part of
content (spec §3). -/
structure Share where
  namespaceID : List Nat
  shareVersion : Nat
  isSequenceStart : Bool
  sequenceLen : Nat
  content : List Nat
deriving DecidableEq

/-- Modelled from the spec: an ordered run of shares under one namespace
representing one logical payload (spec §3). -/
structure ShareSequence where
  namespaceID : List Nat
  shares : List Share
deriving DecidableEq

/-- Namespace id reserved for transactions (appconsts.TxNamespaceID). -/
def TxNamespaceID : List Nat := [0, 0, 0, 0, 0, 0, 0, 1]

/-- Namespace id reserved for tail padding
(appconsts.TailPaddingNamespaceID). -/
def TailPaddingNamespaceID : List Nat := [255, 255, 255, 255, 255, 255, 255, 254]

/-- Namespace id reserved for reserved padding
(appconsts.ReservedPaddingNamespaceID). -/
def ReservedPaddingNamespaceID : List Nat := [0, 0, 0, 0, 0, 0, 0, 255]

/-- Modelled from the spec: the zero-content namespace-padding filler share
for a namespace: a sequence-start share with declared length 0 and all-zero
content (spec §4.1). -/
def NamespacePaddingShare (ns : List Nat) : Share :=
  { namespaceID := ns, shareVersion := 0, isSequenceStart := true,
    sequenceLen := 0, content := List.replicate FirstSparseShareContentSize 0 }

/-- Modelled from the spec: the tail-padding filler share (spec §4.1). -/
def TailPaddingShare : Share :=
  { namespaceID := TailPaddingNamespaceID, shareVersion := 0, isSequenceStart := false,
    sequenceLen := 0, content := List.replicate ContinuationSparseShareContentSize 0 }

/-- Modelled from the spec: the reserved-padding filler share (spec §4.1). -/
def ReservedPaddingShare : Share :=
  { namespaceID := ReservedPaddingNamespaceID, shareVersion := 0, isSequenceStart := false,
    sequenceLen := 0, content := List.replicate ContinuationSparseShareContentSize 0 }

/-- Modelled from the spec: reading the declared sequence length of a share
sequence: fails on zero shares, fails when the first share is not flagged as
a sequence start, and otherwise reads the first share's 4-byte SequenceLen
(spec §4.4). -/
def ShareSequence.sequenceLenOf (seq : ShareSequence) : Except ShareErr Nat :=
  match seq.shares with
  | [] => .error .emptySequence
  | first :: _ =>
    if first.isSequenceStart then .ok first.sequenceLen
    else .error .missingSequenceStart

/-- Modelled from the spec: reconstruction of the raw payload of a share
sequence: concatenate the content bytes of every share in order and truncate
to the declared SequenceLen; recovery is truncation of trailing padding,
never pattern-stripping (spec §4.4). -/
def ShareSequence.rawData (seq : ShareSequence) : Except ShareErr (List Nat) :=
  let data := (seq.shares.map Share.content).flatten
  match seq.sequenceLenOf with
  | .error e => .error e
  | .ok n => .ok (data.take n)

/-- Modelled from the spec: the number of shares a sequence of the declared
length must occupy, computed with the capacity arithmetic of the splitter
owning the namespace: compact for the transaction namespace, sparse
otherwise (spec §4.4). -/
def sharesNeededFor (ns : List Nat) (sequenceLen : Nat) : Nat :=
  if ns = TxNamespaceID then CompactSharesNeeded sequenceLen
  else SparseSharesNeeded sequenceLen

/-- Modelled from the spec: sequence-length validation: an empty sequence
fails; sequences under the tail-padding or reserved-padding namespaces, and
the single-share namespace-padding sequence whose share matches the fixed
padding pattern, are always valid; otherwise the share count recomputed from
the declared SequenceLen (taken as 0 when the first share is not a sequence
start) must equal the actual count (spec §4.4; the empty-sequence failure
and the expected-count-of-zero path are pinned by Test_validSequenceLen). -/
def ShareSequence.validSequenceLen (seq : ShareSequence) : Except ShareErr Unit :=
  match seq.shares with
  | [] => .error .emptySequence
  | first :: _ =>
    if seq.namespaceID = TailPaddingNamespaceID
        ∨ seq.namespaceID = ReservedPaddingNamespaceID
        ∨ seq.shares = [NamespacePaddingShare seq.namespaceID] then .ok ()
    else
      let declared := if first.isSequenceStart then first.sequenceLen else 0
      if seq.shares.length = sharesNeededFor seq.namespaceID declared then .ok ()
      else .error .sequenceLenMismatch

/-- C3: RawData fails with EmptySequence on zero shares, fails with
MissingSequenceStart when the first share's is-sequence-start flag is unset,
and otherwise returns the concatenation of the content bytes of every share
in order truncated to the declared SequenceLen. -/
theorem rawData_spec (seq : ShareSequence) :
    (seq.shares = [] → seq.rawData = .error .emptySequence)
    ∧ (∀ first rest, seq.shares = first :: rest → first.isSequenceStart = false →
        seq.rawData = .error .missingSequenceStart)
    ∧ (∀ first rest, seq.shares = first :: rest → first.isSequenceStart = true →
        seq.rawData = .ok (((seq.shares.map Share.content).flatten).take first.sequenceLen)) := by
  refine ⟨fun h => ?_, fun first rest h hflag => ?_, fun first rest h hflag => ?_⟩
  · simp [ShareSequence.rawData, ShareSequence.sequenceLenOf, h]
  · simp [ShareSequence.rawData, ShareSequence.sequenceLenOf, h, hflag]
  · simp [ShareSequence.rawData, ShareSequence.sequenceLenOf, h, hflag]

/-- Witness for rawData_spec at three concrete sequences patterned on
TestShareSequenceRawData: the empty sequence, a sequence whose only share is
not a sequence start, and a one-byte sequence with trailing padding. -/
theorem rawData_spec_witness :
    (ShareSequence.mk TxNamespaceID []).rawData = .error .emptySequence
    ∧ (ShareSequence.mk TxNamespaceID
        [⟨TxNamespaceID, 0, false, 0, [15]⟩]).rawData = .error .missingSequenceStart
    ∧ (ShareSequence.mk TxNamespaceID
        [⟨TxNamespaceID, 0, true, 1, [15, 0, 0]⟩]).rawData = .ok [15] := by
  refine ⟨(rawData_spec _).1 rfl, ((rawData_spec _).2.1 _ _ rfl rfl), ?_⟩
  exact ((rawData_spec _).2.2 _ _ rfl rfl).trans (by decide)

/-- C4: validSequenceLen fails on an empty share sequence; fails with
SequenceLenMismatch on a nonempty non-padding sequence whose first share
lacks the is-sequence-start flag; and succeeds on every nonempty
tail-padding or reserved-padding sequence and on the single-share
namespace-padding sequence of any namespace. -/
theorem validSequenceLen_spec :
    (∀ ns, (ShareSequence.mk ns []).validSequenceLen = .error .emptySequence)
    ∧ (∀ (seq : ShareSequence) (first : Share) (rest : List Share),
        seq.shares = first :: rest →
        ¬(seq.namespaceID = TailPaddingNamespaceID
          ∨ seq.namespaceID = ReservedPaddingNamespaceID
          ∨ seq.shares = [NamespacePaddingShare seq.namespaceID]) →
        first.isSequenceStart = false →
        seq.validSequenceLen = .error .sequenceLenMismatch)
    ∧ (∀ shares, shares ≠ [] →
        (ShareSequence.mk TailPaddingNamespaceID shares).validSequenceLen = .ok ())
    ∧ (∀ shares, shares ≠ [] →
        (ShareSequence.mk ReservedPaddingNamespaceID shares).validSequenceLen = .ok ())
    ∧ (∀ ns, (ShareSequence.mk ns
        [NamespacePaddingShare ns]).validSequenceLen = .ok ()) := by
  refine ⟨fun ns => rfl, fun seq first rest h hpad hflag => ?_, fun shares h => ?_,
    fun shares h => ?_, fun ns => ?_⟩
  · have hcount : sharesNeededFor seq.namespaceID 0 = 0 := by
      unfold sharesNeededFor
      split_ifs <;> rfl
    simp only [ShareSequence.validSequenceLen, h]
    rw [if_neg (h ▸ hpad)]
    simp only [hflag, if_false, Bool.false_eq_true]
    rw [hcount]
    simp
  · rcases shares with _ | ⟨first, rest⟩
    · exact absurd rfl h
    · simp [ShareSequence.validSequenceLen]
  · rcases shares with _ | ⟨first, rest⟩
    · exact absurd rfl h
    · simp [ShareSequence.validSequenceLen, TailPaddingNamespaceID, ReservedPaddingNamespaceID]
  · simp [ShareSequence.validSequenceLen]

/-- Witness for validSequenceLen_spec at the concrete sequences of
Test_validSequenceLen: the empty sequence, a single non-sequence-start share
under a blob namespace, and the three canonical padding sequences. -/
theorem validSequenceLen_spec_witness :
    (ShareSequence.mk [] []).validSequenceLen = .error .emptySequence
    ∧ (ShareSequence.mk (List.replicate 8 1)
        [⟨List.replicate 8 1, 0, false, 0, [15]⟩]).validSequenceLen
        = .error .sequenceLenMismatch
    ∧ (ShareSequence.mk TailPaddingNamespaceID [TailPaddingShare]).validSequenceLen = .ok ()
    ∧ (ShareSequence.mk ReservedPaddingNamespaceID
        [ReservedPaddingShare]).validSequenceLen = .ok ()
    ∧ (ShareSequence.mk (List.replicate 8 1)
        [NamespacePaddingShare (List.replicate 8 1)]).validSequenceLen = .ok () := by
  refine ⟨validSequenceLen_spec.1 [], ?_, validSequenceLen_spec.2.2.1 _ (by decide),
    validSequenceLen_spec.2.2.2.1 _ (by decide), validSequenceLen_spec.2.2.2.2 _⟩
  exact validSequenceLen_spec.2.1 _ _ _ rfl (by decide) rfl

/-- Modelled from the spec: the transient state of the Compact Share
Splitter (spec §3, §4.2).  stream is every byte placed so far into the
content regions of the sequence, in order: delimiters, item bytes, and any
zero padding inserted when a share had to be closed early; bytesWritten is
the running total of delimiter and item bytes written (the value exported as
SequenceLen); midPadded records whether any share was ever closed early with
nonzero zero-padding. -/
structure CompactShareSplitter where
  stream : List Nat
  bytesWritten : Nat
  midPadded : Bool
deriving DecidableEq

/-- Modelled from the spec: a fresh compact splitter holding no bytes
(spec §4.2). -/
def NewCompactShareSplitter : CompactShareSplitter :=
  { stream := [], bytesWritten := 0, midPadded := false }

/-- Modelled from the spec: the remaining content capacity of the share the
write cursor sits in, given how many content bytes precede the cursor:
first-share capacity before the first share is full, continuation capacity
arithmetic afterwards; a freshly full share counts as closed, so the value
is always at least 1 (spec §4.2). -/
def remCapAt (pos : Nat) : Nat :=
  if pos < FirstCompactShareContentSize then FirstCompactShareContentSize - pos
  else ContinuationCompactShareContentSize
    - (pos - FirstCompactShareContentSize) % ContinuationCompactShareContentSize

/-- Modelled from the spec: writing one transaction to the compact splitter:
compute the minimal varint delimiter of the item's length; if the remaining
budget of the current share cannot hold the delimiter, close the share by
zero-padding it and open a new continuation share; then write the delimiter
followed by the item bytes, which may straddle share boundaries freely
(spec §4.2). -/
def CompactShareSplitter.writeTx (st : CompactShareSplitter) (tx : List Nat) :
    CompactShareSplitter :=
  let delim := putUvarint tx.length
  let rem := remCapAt st.stream.length
  if rem < delim.length then
    { stream := (st.stream ++ List.replicate rem 0) ++ (delim ++ tx)
      bytesWritten := st.bytesWritten + (delim.length + tx.length)
      midPadded := true }
  else
    { stream := st.stream ++ (delim ++ tx)
      bytesWritten := st.bytesWritten + (delim.length + tx.length)
      midPadded := st.midPadded }

/-- Writing a list of transactions in order to a fresh compact splitter
(spec §4.2). -/
def splitTxs (txs : List (List Nat)) : CompactShareSplitter :=
  txs.foldl CompactShareSplitter.writeTx NewCompactShareSplitter

/-- Total content capacity of the minimal run of compact shares whose
capacities can hold n content bytes: the first-share capacity alone, or the
first-share capacity plus whole continuation capacities (spec §4.2). -/
def totalCapFor (n : Nat) : Nat :=
  if n ≤ FirstCompactShareContentSize then FirstCompactShareContentSize
  else FirstCompactShareContentSize
    + ((n - FirstCompactShareContentSize + ContinuationCompactShareContentSize - 1)
        / ContinuationCompactShareContentSize) * ContinuationCompactShareContentSize

/-- Fuel-bounded worker for chunkCont, structurally recursive so that it
evaluates on concrete inputs. -/
def chunkContGo : Nat → List Nat → List (List Nat)
  | _, [] => []
  | 0, s => [s]
  | fuel + 1, s => s.take ContinuationCompactShareContentSize
      :: chunkContGo fuel (s.drop ContinuationCompactShareContentSize)

/-- Cuts a byte stream into continuation-share content regions of
continuation compact capacity each (spec §4.2). -/
def chunkCont (s : List Nat) : List (List Nat) := chunkContGo s.length s

/-- The fuel of chunkContGo is irrelevant once it covers the stream length. -/
theorem chunkContGo_congr : ∀ fuel, ∀ fuel' (s : List Nat),
    s.length ≤ fuel → s.length ≤ fuel' → chunkContGo fuel s = chunkContGo fuel' s := by
  intro fuel
  induction fuel with
  | zero =>
    intro fuel' s h1 h2
    have hnil : s = [] := List.length_eq_zero.mp (by omega)
    subst hnil
    cases fuel' <;> rfl
  | succ fuel ih =>
    intro fuel' s h1 h2
    rcases s with _ | ⟨a, as⟩
    · cases fuel' <;> rfl
    · cases fuel' with
      | zero => simp at h2
      | succ fuel' =>
        simp only [chunkContGo]
        have hC : 1 ≤ ContinuationCompactShareContentSize := by decide
        have hd : ((a :: as).drop ContinuationCompactShareContentSize).length
            = (a :: as).length - ContinuationCompactShareContentSize := List.length_drop ..
        rw [ih fuel' _ (by simp only [hd]; simp at h1 ⊢; omega)
          (by simp only [hd]; simp at h2 ⊢; omega)]

/-- The defining recurrence of chunkCont. -/
theorem chunkCont_eq (s : List Nat) :
    chunkCont s = if s = [] then []
      else s.take ContinuationCompactShareContentSize
        :: chunkCont (s.drop ContinuationCompactShareContentSize) := by
  unfold chunkCont
  rcases s with _ | ⟨a, as⟩
  · rfl
  · rw [if_neg (by simp)]
    simp only [List.length_cons, chunkContGo]
    have hd : ((a :: as).drop ContinuationCompactShareContentSize).length
        = (a :: as).length - ContinuationCompactShareContentSize := List.length_drop ..
    have hC : 1 ≤ ContinuationCompactShareContentSize := by decide
    rw [chunkContGo_congr as.length _ _ (by simp only [hd]; simp; omega)
      (le_refl _)]

/-- Modelled from the spec: Export finalizes the splitter: an empty splitter
yields zero shares; otherwise the stream is zero-padded to the total
capacity of its share run and cut into shares, the first share carrying the
is-sequence-start flag and the total bytes written as its 4-byte SequenceLen
(wrapping as a 32-bit value), and the next free index is returned alongside
(spec §4.2). -/
def CompactShareSplitter.exportShares (st : CompactShareSplitter) (ns : List Nat)
    (startIndex : Nat) : List Share × Nat :=
  if st.stream = [] then ([], startIndex)
  else
    let padded := st.stream
      ++ List.replicate (totalCapFor st.stream.length - st.stream.length) 0
    let shares : List Share :=
      { namespaceID := ns, shareVersion := 0, isSequenceStart := true,
        sequenceLen := st.bytesWritten % 2 ^ 32,
        content := padded.take FirstCompactShareContentSize }
      :: (chunkCont (padded.drop FirstCompactShareContentSize)).map
          (fun c => (⟨ns, 0, false, 0, c⟩ : Share))
    (shares, startIndex + shares.length)

/-- One transaction as it appears inside a compact sequence: its minimal
varint length delimiter followed by its bytes (spec §4.2). -/
def delimitedTx (tx : List Nat) : List Nat :=
  putUvarint tx.length ++ tx

/-- The concatenation of delimiter-plus-content bytes of a transaction list,
which a faithful round trip must reconstruct (spec §8). -/
def delimitedStream (txs : List (List Nat)) : List Nat :=
  (txs.map delimitedTx).flatten

/-- The share sequence obtained by splitting a transaction list with the
compact splitter under the transaction namespace and exporting at index 0. -/
def splitSeq (txs : List (List Nat)) : ShareSequence :=
  { namespaceID := TxNamespaceID,
    shares := ((splitTxs txs).exportShares TxNamespaceID 0).1 }

/-- A varint encoding always has at least one byte. -/
theorem putUvarint_ne_nil (x : Nat) : putUvarint x ≠ [] := by
  rw [putUvarint_eq]
  split <;> simp

/-- A delimited transaction occupies at least one byte. -/
theorem delimitedTx_length_pos (tx : List Nat) : 0 < (delimitedTx tx).length := by
  rw [delimitedTx, List.length_append]
  rcases h : putUvarint tx.length with _ | ⟨b, bs⟩
  · exact absurd h (putUvarint_ne_nil _)
  · simp [h]

/-- Each write adds exactly the delimited item length to the splitter's
running total of bytes written, whether or not it closed a share early. -/
theorem writeTx_bytesWritten (st : CompactShareSplitter) (tx : List Nat) :
    (st.writeTx tx).bytesWritten = st.bytesWritten + (delimitedTx tx).length := by
  simp only [CompactShareSplitter.writeTx]
  split_ifs <;> simp [delimitedTx]

/-- Writing a transaction list adds the length of its delimited
concatenation to the splitter's running total of bytes written. -/
theorem foldl_writeTx_bytesWritten (txs : List (List Nat)) :
    ∀ st : CompactShareSplitter,
      (txs.foldl CompactShareSplitter.writeTx st).bytesWritten
        = st.bytesWritten + (delimitedStream txs).length := by
  induction txs with
  | nil => intro st; simp [delimitedStream]
  | cons t ts ih =>
    intro st
    simp only [List.foldl_cons]
    rw [ih, writeTx_bytesWritten]
    simp only [delimitedStream, List.map_cons, List.flatten_cons, List.length_append]
    omega

/-- A write that left the early-padding flag clear found the flag clear,
inserted no padding, and appended exactly the delimited item. -/
theorem writeTx_no_midPad {st : CompactShareSplitter} {tx : List Nat}
    (h : (st.writeTx tx).midPadded = false) :
    st.midPadded = false ∧ (st.writeTx tx).stream = st.stream ++ delimitedTx tx := by
  by_cases hc : remCapAt st.stream.length < (putUvarint tx.length).length
  · exfalso
    simp [CompactShareSplitter.writeTx, hc] at h
  · constructor
    · simpa [CompactShareSplitter.writeTx, hc] using h
    · simp [CompactShareSplitter.writeTx, hc, delimitedTx]

/-- A run of writes that ends with the early-padding flag clear appended
exactly the delimited concatenation of its transactions to the stream. -/
theorem foldl_writeTx_no_midPad (txs : List (List Nat)) :
    ∀ st : CompactShareSplitter,
      (txs.foldl CompactShareSplitter.writeTx st).midPadded = false →
      st.midPadded = false
      ∧ (txs.foldl CompactShareSplitter.writeTx st).stream
          = st.stream ++ delimitedStream txs := by
  induction txs with
  | nil => intro st h; exact ⟨h, by simp [delimitedStream]⟩
  | cons t ts ih =>
    intro st h
    simp only [List.foldl_cons] at h ⊢
    obtain ⟨h1, h2⟩ := ih _ h
    obtain ⟨h3, h4⟩ := writeTx_no_midPad h1
    refine ⟨h3, ?_⟩
    rw [h2, h4]
    simp [delimitedStream, List.append_assoc]

/-- Reassembling the continuation chunks of a stream yields the stream. -/
theorem chunkCont_flatten (s : List Nat) : (chunkCont s).flatten = s := by
  by_cases h : s = []
  · rw [chunkCont_eq]; simp [h]
  · rw [chunkCont_eq, if_neg h, List.flatten_cons,
      chunkCont_flatten (s.drop ContinuationCompactShareContentSize),
      List.take_append_drop]
termination_by s.length
decreasing_by
  have hpos : 0 < s.length := List.length_pos.mpr h
  simp only [List.length_drop, ContinuationCompactShareContentSize, ShareSize, NamespaceSize,
    ShareInfoBytes, CompactShareReservedBytes]
  omega

/-- A stream of exactly k whole continuation capacities cuts into k
continuation chunks. -/
theorem chunkCont_length_mul (k : Nat) :
    ∀ s : List Nat, s.length = k * ContinuationCompactShareContentSize →
      (chunkCont s).length = k := by
  induction k with
  | zero =>
    intro s hs
    have hnil : s = [] := List.length_eq_zero.mp (by simpa using hs)
    rw [chunkCont_eq]
    simp [hnil]
  | succ k ih =>
    intro s hs
    have hne : s ≠ [] := by
      intro hnil
      rw [hnil] at hs
      simp only [List.length_nil, ContinuationCompactShareContentSize, ShareSize,
        NamespaceSize, ShareInfoBytes, CompactShareReservedBytes] at hs
      omega
    rw [chunkCont_eq, if_neg hne]
    simp only [List.length_cons]
    have hdrop : (s.drop ContinuationCompactShareContentSize).length
        = k * ContinuationCompactShareContentSize := by
      simp only [List.length_drop, ContinuationCompactShareContentSize, ShareSize,
        NamespaceSize, ShareInfoBytes, CompactShareReservedBytes] at hs ⊢
      omega
    rw [ih _ hdrop]

/-- The minimal share run for n bytes has total capacity at least n. -/
theorem totalCapFor_ge (n : Nat) : n ≤ totalCapFor n := by
  unfold totalCapFor
  simp only [FirstCompactShareContentSize, ContinuationCompactShareContentSize, ShareSize,
    NamespaceSize, ShareInfoBytes, SequenceLenBytes, CompactShareReservedBytes]
  split_ifs <;> omega

/-- Exporting a splitter that holds at least one byte produces a
sequence-start share carrying the wrapped byte total followed by the
continuation chunks of the zero-padded stream. -/
theorem exportShares_of_ne_nil (D : List Nat) (b : Nat) (mp : Bool) (ns : List Nat) (i : Nat)
    (h : D ≠ []) :
    (CompactShareSplitter.exportShares ⟨D, b, mp⟩ ns i).1
      = (⟨ns, 0, true, b % 2 ^ 32,
          (D ++ List.replicate (totalCapFor D.length - D.length) 0).take
            FirstCompactShareContentSize⟩ : Share)
        :: (chunkCont ((D ++ List.replicate (totalCapFor D.length - D.length) 0).drop
            FirstCompactShareContentSize)).map
            (fun c => (⟨ns, 0, false, 0, c⟩ : Share)) := by
  simp only [CompactShareSplitter.exportShares, if_neg h]

/-- The zero-padded export stream has exactly the total capacity of the
minimal share run for the stream. -/
theorem padded_length (D : List Nat) :
    (D ++ List.replicate (totalCapFor D.length - D.length) 0).length
      = totalCapFor D.length := by
  have := totalCapFor_ge D.length
  simp only [List.length_append, List.length_replicate]
  omega

/-- The share count produced by export matches the count recomputed from the
stream length by the capacity arithmetic. -/
theorem export_shareCount (D : List Nat) (hpos : 0 < D.length) :
    (chunkCont ((D ++ List.replicate (totalCapFor D.length - D.length) 0).drop
        FirstCompactShareContentSize)).length + 1 = CompactSharesNeeded D.length := by
  have hlen := padded_length D
  by_cases h : D.length ≤ FirstCompactShareContentSize
  · have hdrop : ((D ++ List.replicate (totalCapFor D.length - D.length) 0).drop
        FirstCompactShareContentSize) = [] := by
      refine List.length_eq_zero.mp ?_
      rw [List.length_drop, hlen]
      unfold totalCapFor
      rw [if_pos h]
      omega
    rw [hdrop, chunkCont_eq]
    simp only [if_pos, List.length_nil]
    rw [CompactSharesNeeded, if_neg (by omega), if_pos h]
  · have hdrop : ((D ++ List.replicate (totalCapFor D.length - D.length) 0).drop
        FirstCompactShareContentSize).length
        = ((D.length - FirstCompactShareContentSize + ContinuationCompactShareContentSize - 1)
            / ContinuationCompactShareContentSize) * ContinuationCompactShareContentSize := by
      rw [List.length_drop, hlen]
      unfold totalCapFor
      rw [if_neg h]
      omega
    rw [chunkCont_length_mul _ _ hdrop]
    rw [CompactSharesNeeded, if_neg (by omega), if_neg h]
    omega

/-- C1 (amended): for every nonempty transaction list whose delimited
concatenation is shorter than 2^32 bytes and whose writes never force the
splitter to close a share early (the delimiter always fits the remaining
budget, as happens in particular when every transaction is shorter than 128
bytes), splitting with the compact splitter and reconstructing the exported
sequence returns exactly the original concatenation of delimiter-plus-content
bytes, and validSequenceLen succeeds on the exported sequence. -/
theorem compactSplitter_roundTrip (txs : List (List Nat)) (hne : txs ≠ [])
    (hnp : (splitTxs txs).midPadded = false)
    (hlen : (delimitedStream txs).length < 2 ^ 32) :
    (splitSeq txs).rawData = .ok (delimitedStream txs)
    ∧ (splitSeq txs).validSequenceLen = .ok () := by
  have hstream : (splitTxs txs).stream = delimitedStream txs := by
    have h := (foldl_writeTx_no_midPad txs NewCompactShareSplitter hnp).2
    simpa [NewCompactShareSplitter, splitTxs] using h
  have hbytes : (splitTxs txs).bytesWritten = (delimitedStream txs).length := by
    have h := foldl_writeTx_bytesWritten txs NewCompactShareSplitter
    simpa [NewCompactShareSplitter, splitTxs] using h
  have hDpos : 0 < (delimitedStream txs).length := by
    rcases txs with _ | ⟨t, ts⟩
    · exact absurd rfl hne
    · simp only [delimitedStream, List.map_cons, List.flatten_cons, List.length_append]
      have := delimitedTx_length_pos t
      omega
  have hDne : delimitedStream txs ≠ [] := by
    intro hc
    rw [hc] at hDpos
    simp at hDpos
  have hmod : (delimitedStream txs).length % 2 ^ 32 = (delimitedStream txs).length :=
    Nat.mod_eq_of_lt hlen
  have hsplit : splitTxs txs
      = (⟨delimitedStream txs, (delimitedStream txs).length, false⟩ : CompactShareSplitter) := by
    rcases hst : splitTxs txs with ⟨s, b, m⟩
    rw [hst] at hstream hbytes hnp
    simp only at hstream hbytes hnp
    rw [hstream, hbytes, hnp]
  have hshares : (splitSeq txs).shares
      = (⟨TxNamespaceID, 0, true, (delimitedStream txs).length % 2 ^ 32,
          ((delimitedStream txs) ++ List.replicate
            (totalCapFor (delimitedStream txs).length - (delimitedStream txs).length) 0).take
            FirstCompactShareContentSize⟩ : Share)
        :: (chunkCont (((delimitedStream txs) ++ List.replicate
            (totalCapFor (delimitedStream txs).length - (delimitedStream txs).length) 0).drop
            FirstCompactShareContentSize)).map
            (fun c => (⟨TxNamespaceID, 0, false, 0, c⟩ : Share)) := by
    rw [splitSeq]
    simp only [hsplit]
    rw [exportShares_of_ne_nil _ _ _ _ _ hDne]
  have hflatten : (((splitSeq txs).shares.map Share.content).flatten)
      = (delimitedStream txs) ++ List.replicate
          (totalCapFor (delimitedStream txs).length - (delimitedStream txs).length) 0 := by
    rw [hshares]
    simp only [List.map_cons, List.map_map, List.flatten_cons]
    have hid : (Share.content ∘ fun c => (⟨TxNamespaceID, 0, false, 0, c⟩ : Share))
        = fun c : List Nat => c := rfl
    rw [hid, List.map_id', chunkCont_flatten, List.take_append_drop]
  constructor
  · rw [ShareSequence.rawData]
    have hseq : (splitSeq txs).sequenceLenOf = .ok (delimitedStream txs).length := by
      rw [ShareSequence.sequenceLenOf, hshares]
      exact congrArg Except.ok hmod
    rw [hseq]
    simp only [hflatten]
    rw [List.take_left]
  · have hseqeq : splitSeq txs = ShareSequence.mk TxNamespaceID
        ((⟨TxNamespaceID, 0, true, (delimitedStream txs).length % 2 ^ 32,
          ((delimitedStream txs) ++ List.replicate
            (totalCapFor (delimitedStream txs).length - (delimitedStream txs).length) 0).take
            FirstCompactShareContentSize⟩ : Share)
        :: (chunkCont (((delimitedStream txs) ++ List.replicate
            (totalCapFor (delimitedStream txs).length - (delimitedStream txs).length) 0).drop
            FirstCompactShareContentSize)).map
            (fun c => (⟨TxNamespaceID, 0, false, 0, c⟩ : Share))) := by
      rw [← hshares]
      rfl
    rw [hseqeq, ShareSequence.validSequenceLen]
    simp only []
    rw [if_neg ?notPad]
    case notPad =>
      rintro (habs | habs | habs)
      · exact absurd habs (by decide)
      · exact absurd habs (by decide)
      · simp only [List.cons.injEq] at habs
        have hf := congrArg Share.sequenceLen habs.1
        simp only [NamespacePaddingShare] at hf
        rw [hmod] at hf
        omega
    have hcount := export_shareCount (delimitedStream txs) hDpos
    have hfor : sharesNeededFor TxNamespaceID (delimitedStream txs).length
        = CompactSharesNeeded (delimitedStream txs).length := by
      simp [sharesNeededFor]
    simp only [hmod, List.length_cons, List.length_map, if_true]
    rw [hfor, if_pos hcount]

/-- The concrete five-transaction scenario: five 200-byte transactions. -/
def fiveTxs : List (List Nat) := List.replicate 5 (List.replicate 200 7)

/-- The round-trip claim is false as stated over every transaction list: on
the empty list the splitter exports zero shares, so reconstruction fails
with EmptySequence instead of returning the empty concatenation, and
validSequenceLen fails as well. -/
theorem compactSplitter_roundTrip_counterexample :
    ¬((splitSeq []).rawData = .ok (delimitedStream [])
      ∧ (splitSeq []).validSequenceLen = .ok ()) := by
  decide

set_option maxRecDepth 100000 in
/-- Witness for compactSplitter_roundTrip at the concrete scenario of the
spec: five transactions of 200 bytes each, split starting at index 0,
reconstruct to exactly the five delimited 200-byte buffers in order and
validate successfully. -/
theorem compactSplitter_roundTrip_witness :
    fiveTxs ≠ [] ∧ (splitTxs fiveTxs).midPadded = false
      ∧ (delimitedStream fiveTxs).length < 2 ^ 32
      ∧ ((splitSeq fiveTxs).rawData = .ok (delimitedStream fiveTxs)
          ∧ (splitSeq fiveTxs).validSequenceLen = .ok ()) :=
  have h1 : fiveTxs ≠ [] := by decide
  have h2 : (splitTxs fiveTxs).midPadded = false := by decide
  have h3 : (delimitedStream fiveTxs).length < 2 ^ 32 := by decide
  ⟨h1, h2, h3, compactSplitter_roundTrip fiveTxs h1 h2 h3⟩

/-- A blob-bearing transaction as supplied by the transaction-selection
collaborator: the raw transaction bytes and the total usable-data length of
its blobs (blobTx.Tx and blobTx.DataUsed() in the source; the blob list
itself is external to this core, spec §3). -/
structure BlobTx where
  tx : List Nat
  dataUsed : Nat
deriving DecidableEq

/-- parsedTx from the source: a plain transaction carries nonempty normalTx
bytes; a blob-bearing transaction carries empty normalTx and a meaningful
blobTx; the source dispatches on whether normalTx is empty. -/
structure parsedTx where
  normalTx : List Nat
  blobTx : BlobTx
deriving DecidableEq

/-- Modelled from the spec: serialized length of the index wrapper attaching
a blob-share index to a transaction, as produced by MarshalIndexWrapper of
the consensus library, which is external to this core: a protobuf message
with a varint-length-prefixed tx field and a varint share-index field
(omitted when zero), so that larger squares need wider index encodings
(spec §4.5). -/
def indexWrapperLen (shareIndex txLen : Nat) : Nat :=
  (1 + DelimLen txLen + txLen) + (if shareIndex = 0 then 0 else 1 + DelimLen shareIndex)

/-- maxWrappedTxOverhead from the source: synthesize the worst-case body for
the candidate square (squareSize² × continuation compact capacity bytes)
carrying the maximum index value (squareSize², narrowed to 32 bits as in
the source), serialize the wrapper once, and return wrapped length minus
unwrapped length as a machine integer. -/
def maxWrappedTxOverhead (squareSize : Nat) : Int :=
  let maxTxLen := squareSize * squareSize * ContinuationCompactShareContentSize
  (indexWrapperLen (squareSize * squareSize % 2 ^ 32) maxTxLen : Int) - (maxTxLen : Int)

/-- The loop of estimateCompactShares from the source: each plain
transaction contributes its length plus a delimiter sized on that length;
each blob-bearing transaction contributes its transaction length plus the
wrapped-transaction overhead of the candidate square size, with its
delimiter sized on the augmented length.  The overhead is computed once,
before the loop, exactly as in the source; it is provably nonnegative and
is added here as a natural number where the source adds a machine int. -/
def estimateCompactSharesBytes (squareSize : Nat) (ptxs : List parsedTx) : Nat :=
  let maxWTxOverhead := (maxWrappedTxOverhead squareSize).toNat
  ptxs.foldl (fun txbytes pTx =>
    if pTx.normalTx.length ≠ 0 then
      txbytes + (pTx.normalTx.length + DelimLen pTx.normalTx.length)
    else
      txbytes + (pTx.blobTx.tx.length + maxWTxOverhead
        + DelimLen (pTx.blobTx.tx.length + maxWTxOverhead))) 0

/-- estimateCompactShares from the source: the synthetic byte total rounded
up to shares, with one share for totals within the first-share capacity and
one extra share of rounding slack beyond it. -/
def estimateCompactShares (squareSize : Nat) (ptxs : List parsedTx) : Nat :=
  let txbytes := estimateCompactSharesBytes squareSize ptxs
  if txbytes ≤ FirstCompactShareContentSize then 1
  else 1 + ((txbytes - FirstCompactShareContentSize)
      / ContinuationCompactShareContentSize) + 1

/-- The blob loop of estimateSquareSize from the source: sparse shares
needed for the usable data of every blob-bearing transaction, with the
32-bit narrowing the source applies to DataUsed. -/
def blobSharesUsed (txs : List parsedTx) : Nat :=
  txs.foldl (fun acc ptx =>
    if ptx.normalTx.length ≠ 0 then acc
    else acc + SparseSharesNeeded (ptx.blobTx.dataUsed % 2 ^ 32)) 0

/-- The least natural number whose square is at least k, the value of
math.Ceil applied to math.Sqrt k. -/
def ceilSqrt (k : Nat) : Nat := if k = 0 then 0 else Nat.sqrt (k - 1) + 1

/-- shares.RoundUpPowerOfTwo from the source: the smallest power of two at
least the input (the source's doubling loop; 1 for inputs up to 1). -/
def RoundUpPowerOfTwo (input : Nat) : Nat := 2 ^ Nat.clog 2 input

/-- The two clamping statements ending estimateSquareSize in the source:
values at least the maximum become the maximum, then values at most the
minimum become the minimum. -/
def clampSquareSize (squareSize : Nat) : Nat :=
  let s1 := if squareSize ≥ DefaultMaxSquareSize then DefaultMaxSquareSize else squareSize
  if s1 ≤ DefaultMinSquareSize then DefaultMinSquareSize else s1

/-- estimateSquareSize from the source.  The float64 steps — multiplying the
total share count by the worst-case padding ratio 1.35, taking the square
root, and rounding up — are modelled exactly over the rationals: 1.35 is
27 / 20, and the ceiling of the square root of 27·total/20 is ceilSqrt of
the integer ceiling of 27·total/20; for every total small enough not to be
clamped to the maximum, the exact value 27·total/20 is at distance at least
1/20 from every perfect square it does not hit, far beyond float64 rounding
error, so the modelled result coincides with the source's. -/
def estimateSquareSize (txs : List parsedTx) : Nat × Nat :=
  let txSharesUsed := estimateCompactShares DefaultMaxSquareSize txs
  let blobShares := blobSharesUsed txs
  let totalSharesUsed := txSharesUsed + blobShares
  if totalSharesUsed ≤ 1 then (DefaultMinSquareSize, txSharesUsed)
  else
    let minSize := ceilSqrt ((27 * totalSharesUsed + 19) / 20)
    (clampSquareSize (RoundUpPowerOfTwo minSize), txSharesUsed)

/-- A varint length is always at least one byte. -/
theorem DelimLen_pos (x : Nat) : 1 ≤ DelimLen x := by
  rw [DelimLen_eq]
  split <;> omega

/-- Varint lengths are monotone in the encoded value. -/
theorem DelimLen_mono : ∀ {y x : Nat}, x ≤ y → DelimLen x ≤ DelimLen y := by
  intro y
  induction y using Nat.strong_induction_on with
  | _ y ih =>
    intro x h
    by_cases hx : x < 128
    · rw [DelimLen_eq, if_pos hx]
      exact DelimLen_pos y
    · have hy : ¬y < 128 := by omega
      rw [DelimLen_eq x, if_neg hx, DelimLen_eq y, if_neg hy]
      have hle : x / 128 ≤ y / 128 := Nat.div_le_div_right h
      have hlt : y / 128 < y := Nat.div_lt_self (by omega) (by omega)
      exact Nat.add_le_add_left (ih _ hlt hle) 1

/-- Modelled from the spec's wording of step 1 of the estimator: the byte
contribution of one transaction, given the wrapped-transaction overhead
already computed for the candidate square size. -/
def txContribution (overhead : Nat) (ptx : parsedTx) : Nat :=
  if ptx.normalTx.length ≠ 0 then
    ptx.normalTx.length + DelimLen ptx.normalTx.length
  else
    (ptx.blobTx.tx.length + overhead) + DelimLen (ptx.blobTx.tx.length + overhead)

/-- The per-blob share contribution inside blobSharesUsed. -/
def blobContribution (ptx : parsedTx) : Nat :=
  if ptx.normalTx.length ≠ 0 then 0
  else SparseSharesNeeded (ptx.blobTx.dataUsed % 2 ^ 32)

/-- Folding an accumulate-only loop is summing the per-element values. -/
theorem foldl_add_map_sum (f : parsedTx → Nat) :
    ∀ (l : List parsedTx) (a : Nat),
      l.foldl (fun acc x => acc + f x) a = a + (l.map f).sum := by
  intro l
  induction l with
  | nil => intro a; simp
  | cons x xs ih =>
    intro a
    simp only [List.foldl_cons, List.map_cons, List.sum_cons]
    rw [ih]
    omega

/-- The loop of estimateCompactShares sums the per-transaction
contributions, all sharing the one overhead value of the candidate square
size. -/
theorem compactBytes_sum (squareSize : Nat) (ptxs : List parsedTx) :
    estimateCompactSharesBytes squareSize ptxs
      = (ptxs.map (txContribution ((maxWrappedTxOverhead squareSize).toNat))).sum := by
  have hfun : (fun (txbytes : Nat) (pTx : parsedTx) =>
      if pTx.normalTx.length ≠ 0 then
        txbytes + (pTx.normalTx.length + DelimLen pTx.normalTx.length)
      else
        txbytes + (pTx.blobTx.tx.length + (maxWrappedTxOverhead squareSize).toNat
          + DelimLen (pTx.blobTx.tx.length + (maxWrappedTxOverhead squareSize).toNat)))
      = fun (acc : Nat) (pTx : parsedTx) =>
          acc + txContribution ((maxWrappedTxOverhead squareSize).toNat) pTx := by
    funext acc pTx
    rw [txContribution]
    split_ifs <;> omega
  rw [estimateCompactSharesBytes]
  rw [hfun, foldl_add_map_sum]
  omega

/-- The blob loop of the estimator sums the per-blob contributions. -/
theorem blobShares_sum (txs : List parsedTx) :
    blobSharesUsed txs = (txs.map blobContribution).sum := by
  have hfun : (fun (acc : Nat) (ptx : parsedTx) =>
      if ptx.normalTx.length ≠ 0 then acc
      else acc + SparseSharesNeeded (ptx.blobTx.dataUsed % 2 ^ 32))
      = fun (acc : Nat) (ptx : parsedTx) => acc + blobContribution ptx := by
    funext acc ptx
    rw [blobContribution]
    split_ifs <;> omega
  rw [blobSharesUsed, hfun, foldl_add_map_sum]
  omega

/-- C6: the synthetic byte total of estimateCompactShares is the sum over
transactions of: raw length plus a delimiter sized on that raw length for a
plain transaction, and transaction length plus the wrapped-transaction
overhead of the candidate square size with the delimiter sized on the
augmented length for a blob-bearing one; the single overhead value, computed
once per candidate square size before the loop, is shared by every
blob-bearing transaction. -/
theorem estimateCompactShares_contribution (squareSize : Nat) (ptxs : List parsedTx) :
    estimateCompactSharesBytes squareSize ptxs
      = (ptxs.map (txContribution ((maxWrappedTxOverhead squareSize).toNat))).sum :=
  compactBytes_sum squareSize ptxs

/-- The overhead, rewritten without the cancelling body length: two protobuf
tags plus the varint lengths of the body length and of the index. -/
theorem maxWrappedTxOverhead_eq (s : Nat) (hs : 1 ≤ s) (hs128 : s ≤ 128) :
    maxWrappedTxOverhead s
      = ((2 + DelimLen (s * s * ContinuationCompactShareContentSize)
          + DelimLen (s * s) : Nat) : Int) := by
  have hsq : s * s ≤ 16384 := by
    calc s * s ≤ 128 * 128 := Nat.mul_le_mul hs128 hs128
    _ = 16384 := by norm_num
  have hmod : s * s % 2 ^ 32 = s * s := Nat.mod_eq_of_lt (by omega)
  have hne : ¬s * s = 0 := by
    have := Nat.mul_le_mul hs hs
    omega
  rw [maxWrappedTxOverhead]
  simp only [indexWrapperLen, hmod, if_neg hne]
  push_cast
  ring

/-- C7: over the allowed square-size range the wrapped-transaction overhead
is nonnegative and non-decreasing in the square size. -/
theorem maxWrappedTxOverhead_nonneg_mono (s1 s2 : Nat)
    (h1 : DefaultMinSquareSize ≤ s1) (h12 : s1 ≤ s2) (h2 : s2 ≤ DefaultMaxSquareSize) :
    0 ≤ maxWrappedTxOverhead s1 ∧ maxWrappedTxOverhead s1 ≤ maxWrappedTxOverhead s2 := by
  have h1' : 1 ≤ s1 := by simpa [DefaultMinSquareSize] using h1
  have h2' : s2 ≤ 128 := by simpa [DefaultMaxSquareSize] using h2
  have e1 := maxWrappedTxOverhead_eq s1 h1' (by omega)
  have e2 := maxWrappedTxOverhead_eq s2 (by omega) h2'
  rw [e1, e2]
  constructor
  · exact_mod_cast Nat.zero_le _
  · have hmul : s1 * s1 ≤ s2 * s2 := Nat.mul_le_mul h12 h12
    have hm1 : DelimLen (s1 * s1 * ContinuationCompactShareContentSize)
        ≤ DelimLen (s2 * s2 * ContinuationCompactShareContentSize) :=
      DelimLen_mono (Nat.mul_le_mul_right _ hmul)
    have hm2 : DelimLen (s1 * s1) ≤ DelimLen (s2 * s2) := DelimLen_mono hmul
    exact_mod_cast by omega

/-- Witness for maxWrappedTxOverhead_nonneg_mono at the extreme pair of the
allowed range. -/
theorem maxWrappedTxOverhead_nonneg_mono_witness :
    DefaultMinSquareSize ≤ 1 ∧ (1 : Nat) ≤ 128 ∧ 128 ≤ DefaultMaxSquareSize
    ∧ (0 ≤ maxWrappedTxOverhead 1 ∧ maxWrappedTxOverhead 1 ≤ maxWrappedTxOverhead 128) :=
  ⟨by decide, by decide, by decide,
    maxWrappedTxOverhead_nonneg_mono 1 128 (by decide) (by decide) (by decide)⟩

/-- The compact estimate is at least one share on every input. -/
theorem estimateCompactShares_ge_one (squareSize : Nat) (ptxs : List parsedTx) :
    1 ≤ estimateCompactShares squareSize ptxs := by
  simp only [estimateCompactShares, FirstCompactShareContentSize_val,
    ContinuationCompactShareContentSize_val]
  split_ifs <;> omega

/-- C10: estimateCompactShares returns at least 1 for every transaction
list, including the empty one, so the total share estimate of
estimateSquareSize is never zero and the returned nonreserveStart is always
at least 1. -/
theorem estimateSquareSize_total_pos (txs : List parsedTx) :
    1 ≤ estimateCompactShares DefaultMaxSquareSize txs
    ∧ estimateCompactShares DefaultMaxSquareSize txs + blobSharesUsed txs ≠ 0
    ∧ 1 ≤ (estimateSquareSize txs).2 := by
  have h := estimateCompactShares_ge_one DefaultMaxSquareSize txs
  refine ⟨h, by omega, ?_⟩
  rw [estimateSquareSize]
  split_ifs <;> simpa using h

/-- C5: the nonreserveStart component of estimateSquareSize is the compact
estimate at the maximum square size on both branches, independent of the
clamped square size. -/
theorem estimateSquareSize_nonreserveStart (txs : List parsedTx) :
    (estimateSquareSize txs).2 = estimateCompactShares DefaultMaxSquareSize txs := by
  rw [estimateSquareSize]
  split_ifs <;> rfl

/-- The clamp always lands inside the allowed range and fixes powers of two
that are already inside it. -/
theorem clampSquareSize_pow (k : Nat) :
    (∃ j, clampSquareSize (2 ^ k) = 2 ^ j)
    ∧ DefaultMinSquareSize ≤ clampSquareSize (2 ^ k)
    ∧ clampSquareSize (2 ^ k) ≤ DefaultMaxSquareSize := by
  simp only [clampSquareSize, DefaultMinSquareSize, DefaultMaxSquareSize]
  have hpos : 1 ≤ 2 ^ k := Nat.one_le_two_pow
  split_ifs with h1 h2 h2
  · omega
  · exact ⟨⟨7, by norm_num⟩, by omega, by omega⟩
  · exact ⟨⟨0, by norm_num⟩, by omega, by omega⟩
  · exact ⟨⟨k, rfl⟩, by omega, by omega⟩

/-- The clamp is monotone. -/
theorem clampSquareSize_mono {a b : Nat} (h : a ≤ b) :
    clampSquareSize a ≤ clampSquareSize b := by
  simp only [clampSquareSize, DefaultMinSquareSize, DefaultMaxSquareSize]
  split_ifs <;> omega

/-- The clamp never returns less than the minimum square size. -/
theorem clampSquareSize_ge_min (a : Nat) :
    DefaultMinSquareSize ≤ clampSquareSize a := by
  simp only [clampSquareSize, DefaultMinSquareSize, DefaultMaxSquareSize]
  split_ifs <;> omega

/-- The integer ceiling of a square root is monotone. -/
theorem ceilSqrt_mono {a b : Nat} (h : a ≤ b) : ceilSqrt a ≤ ceilSqrt b := by
  rcases Nat.eq_zero_or_pos a with ha | ha
  · subst ha
    simp [ceilSqrt]
  · rw [ceilSqrt, if_neg (by omega), ceilSqrt, if_neg (by omega)]
    have := Nat.sqrt_le_sqrt (show a - 1 ≤ b - 1 by omega)
    omega

/-- Rounding up to a power of two is monotone. -/
theorem RoundUpPowerOfTwo_mono {a b : Nat} (h : a ≤ b) :
    RoundUpPowerOfTwo a ≤ RoundUpPowerOfTwo b :=
  Nat.pow_le_pow_right (by omega) (Nat.clog_mono_right 2 h)

/-- C2: estimateSquareSize always returns a square size that is a power of
two inside the allowed range, and when the total estimated share count is
at most 1 it short-circuits to exactly the minimum square size paired with
the compact-share count. -/
theorem estimateSquareSize_bounds_and_short_circuit (txs : List parsedTx) :
    ((∃ k, (estimateSquareSize txs).1 = 2 ^ k)
      ∧ DefaultMinSquareSize ≤ (estimateSquareSize txs).1
      ∧ (estimateSquareSize txs).1 ≤ DefaultMaxSquareSize)
    ∧ (estimateCompactShares DefaultMaxSquareSize txs + blobSharesUsed txs ≤ 1 →
        estimateSquareSize txs
          = (DefaultMinSquareSize, estimateCompactShares DefaultMaxSquareSize txs)) := by
  constructor
  · simp only [estimateSquareSize]
    split_ifs with h
    · exact ⟨⟨0, rfl⟩, le_refl _, by norm_num [DefaultMinSquareSize, DefaultMaxSquareSize]⟩
    · simpa using clampSquareSize_pow (Nat.clog 2 (ceilSqrt
        ((27 * (estimateCompactShares DefaultMaxSquareSize txs + blobSharesUsed txs) + 19)
          / 20)))
  · intro h
    simp only [estimateSquareSize, if_pos h]

/-- Witness for estimateSquareSize_bounds_and_short_circuit on the empty
block: the single reserved compact share makes the total exactly one, and
the estimator returns the minimum square size with nonreserveStart 1. -/
theorem estimateSquareSize_bounds_witness :
    estimateCompactShares DefaultMaxSquareSize [] + blobSharesUsed [] ≤ 1
    ∧ estimateSquareSize []
        = (DefaultMinSquareSize, estimateCompactShares DefaultMaxSquareSize []) :=
  ⟨by decide, (estimateSquareSize_bounds_and_short_circuit []).2 (by decide)⟩

/-- Appending one transaction never decreases the synthetic byte total. -/
theorem estimateCompactShares_mono_append (squareSize : Nat) (txs : List parsedTx)
    (t : parsedTx) :
    estimateCompactShares squareSize txs ≤ estimateCompactShares squareSize (txs ++ [t]) := by
  have hb : estimateCompactSharesBytes squareSize txs
      ≤ estimateCompactSharesBytes squareSize (txs ++ [t]) := by
    rw [compactBytes_sum, compactBytes_sum, List.map_append, List.sum_append]
    omega
  simp only [estimateCompactShares, FirstCompactShareContentSize_val,
    ContinuationCompactShareContentSize_val]
  split_ifs <;> omega

/-- Appending one transaction never decreases the blob-share total. -/
theorem blobSharesUsed_mono_append (txs : List parsedTx) (t : parsedTx) :
    blobSharesUsed txs ≤ blobSharesUsed (txs ++ [t]) := by
  rw [blobShares_sum, blobShares_sum, List.map_append, List.sum_append]
  omega

/-- C8: appending any transaction, plain or blob-bearing, never decreases
the square size returned by estimateSquareSize. -/
theorem estimateSquareSize_mono_append (txs : List parsedTx) (t : parsedTx) :
    (estimateSquareSize txs).1 ≤ (estimateSquareSize (txs ++ [t])).1 := by
  have htx := estimateCompactShares_mono_append DefaultMaxSquareSize txs t
  have hblob := blobSharesUsed_mono_append txs t
  simp only [estimateSquareSize]
  split_ifs with h1 h2 h2
  · simp
  · simpa using clampSquareSize_ge_min _
  · omega
  · simp only []
    refine clampSquareSize_mono (RoundUpPowerOfTwo_mono (ceilSqrt_mono ?_))
    exact Nat.div_le_div_right (by omega)

set_option maxRecDepth 100000 in
/-- The early-close hypothesis of the amended round trip is necessary: a
495-byte transaction (497 delimited bytes) leaves one byte of budget in the
first share, so the two-byte delimiter of a following 128-byte transaction
forces a mid-sequence padding byte, and reconstruction no longer returns
the delimited concatenation. -/
theorem compactSplitter_midPad_example :
    (splitTxs [List.replicate 495 7, List.replicate 128 9]).midPadded = true
    ∧ ¬((splitSeq [List.replicate 495 7, List.replicate 128 9]).rawData
        = .ok (delimitedStream [List.replicate 495 7, List.replicate 128 9])) := by
  exact ⟨by decide, by decide⟩
